import Mathlib

/-!
Shallow embedding of `src/utf8.rs` (peterhj/rustc_serialize): an incremental,
resumable streaming UTF-8 decoder.

The Rust code is generic over a byte source `R: Read` from which it requests
exactly one byte at a time.  We model the source as a finite script of read
results (`Reader`): each element is either an I/O error or a successful read
returning a byte count together with the byte delivered (the count is
contractually 0 = end-of-input or 1 = one byte; any larger count is a protocol
violation which the decoder must treat as a failure).  An exhausted script
reads as `Ok(0)` (end of input), which mirrors a real reader at EOF.

Runtime panics of the Rust code (`assert!`, `assert_eq!`, `.unwrap()`) are
modelled as an explicit `panic` outcome, so that "the assertion never fires"
is a provable statement.
-/

set_option maxHeartbeats 1000000
set_option maxRecDepth 10000

namespace Utf8Stream

/-- One result of `R::read` on a 1-byte destination slice: an I/O error, or
`Ok(count)` together with the byte that was placed in the slice (the byte is
meaningful only when `count = 1`). -/
inductive ReadEv where
  | rerr : ReadEv
  | rcount : Nat → Nat → ReadEv
deriving DecidableEq, Repr

/-- The abstract byte source: a finite script of read results; once the
script is exhausted every further read returns `Ok(0)` (end of input). -/
abbrev Reader := List ReadEv

/-- A source that delivers exactly the given bytes, one per read, then EOF. -/
def byteEvents (bs : List Nat) : Reader :=
  bs.map (fun b => ReadEv.rcount 1 b)

/-- The byte reinterpreted as a signed 8-bit integer (`this as i8`). -/
def toI8 (b : Nat) : Int :=
  if b % 256 < 128 then ((b % 256 : Nat) : Int) else ((b % 256 : Nat) : Int) - 256

/-- `is_utf8_char_boundary` from `src/utf8.rs`: `(this as i8) >= -0x40`. -/
def is_utf8_char_boundary (b : Nat) : Bool :=
  decide (-64 ≤ toI8 b)

/-- Rust `char::len_utf8`: the number of bytes of the scalar's UTF-8 encoding. -/
def lenUtf8 (c : Char) : Nat :=
  if c.toNat < 0x80 then 1
  else if c.toNat < 0x800 then 2
  else if c.toNat < 0x10000 then 3
  else 4

/-- Standard UTF-8 encoding of one scalar value (Rust `char::encode_utf8`). -/
def utf8Encode (c : Char) : List Nat :=
  let n := c.toNat
  if n < 0x80 then [n]
  else if n < 0x800 then [0xC0 + n / 64, 0x80 + n % 64]
  else if n < 0x10000 then
    [0xE0 + n / 4096, 0x80 + (n / 64) % 64, 0x80 + n % 64]
  else
    [0xF0 + n / 262144, 0x80 + (n / 4096) % 64, 0x80 + (n / 64) % 64, 0x80 + n % 64]

/-- UTF-8 encoding of a sequence of scalar values, concatenated. -/
def utf8EncodeList (cs : List Char) : List Nat :=
  (cs.map utf8Encode).flatten

/-- A UTF-8 continuation byte: high bits `10`, i.e. in `0x80 ..= 0xBF`. -/
def isCont (b : Nat) : Bool :=
  decide (0x80 ≤ b ∧ b < 0xC0)

/-- Admissible second byte of a 3-byte sequence with lead `b0` (restricted
ranges for `0xE0` to exclude overlong forms and for `0xED` to exclude
surrogates). -/
def cont3ok (b0 b1 : Nat) : Bool :=
  if b0 = 0xE0 then decide (0xA0 ≤ b1 ∧ b1 < 0xC0)
  else if b0 = 0xED then decide (0x80 ≤ b1 ∧ b1 < 0xA0)
  else isCont b1

/-- Admissible second byte of a 4-byte sequence with lead `b0` (restricted
ranges for `0xF0` to exclude overlong forms and for `0xF4` to keep code
points at most `0x10FFFF`). -/
def cont4ok (b0 b1 : Nat) : Bool :=
  if b0 = 0xF0 then decide (0x90 ≤ b1 ∧ b1 < 0xC0)
  else if b0 = 0xF4 then decide (0x80 ≤ b1 ∧ b1 < 0x90)
  else isCont b1

/-- Decode the first scalar value of a UTF-8 byte sequence, returning the
scalar and the remaining bytes; `none` if the sequence does not start with a
well-formed encoding.  This follows the standard UTF-8 validation table
(rejecting overlong forms, surrogates and code points above `0x10FFFF`),
which is the semantics of Rust `str::from_utf8`. -/
def utf8DecodeFirst : List Nat → Option (Char × List Nat)
  | [] => none
  | b0 :: t =>
    if b0 < 0x80 then some (Char.ofNat b0, t)
    else if b0 < 0xC2 then none
    else if b0 < 0xE0 then
      match t with
      | b1 :: t1 =>
        if isCont b1 then some (Char.ofNat ((b0 - 0xC0) * 64 + (b1 - 0x80)), t1)
        else none
      | [] => none
    else if b0 < 0xF0 then
      match t with
      | b1 :: b2 :: t2 =>
        if cont3ok b0 b1 ∧ isCont b2 then
          some (Char.ofNat ((b0 - 0xE0) * 4096 + (b1 - 0x80) * 64 + (b2 - 0x80)), t2)
        else none
      | _ => none
    else if b0 < 0xF5 then
      match t with
      | b1 :: b2 :: b3 :: t3 =>
        if cont4ok b0 b1 ∧ isCont b2 ∧ isCont b3 then
          some (Char.ofNat ((b0 - 0xF0) * 262144 + (b1 - 0x80) * 4096
                              + (b2 - 0x80) * 64 + (b3 - 0x80)), t3)
        else none
      | _ => none
    else none

/-- Fuelled UTF-8 validity check: the whole byte sequence is a concatenation
of well-formed encodings.  `fuel = length` always suffices because each
decode step consumes at least one byte. -/
def validUtf8Go : Nat → List Nat → Bool
  | _, [] => true
  | 0, _ :: _ => false
  | Nat.succ fuel, l =>
    match utf8DecodeFirst l with
    | none => false
    | some (_, rest) => validUtf8Go fuel rest

/-- Rust `str::from_utf8` succeeds on the byte slice iff this holds. -/
def validUtf8 (l : List Nat) : Bool :=
  validUtf8Go l.length l

/-- The decoder state of `CharBuffer<R>`: the byte source, the 4-byte
lookahead buffer, the count of valid pending bytes, and the end-of-input and
failure flags. -/
structure CharBuffer where
  inner : Reader
  buf : List Nat
  bsz : Nat
  eof : Bool
  err : Bool
deriving DecidableEq, Repr

/-- The fill loop of `CharBuffer::next` (`for i in olen .. 4 { ... }`),
reading one byte at a time into consecutive buffer slots.  The fuel is the
number of remaining loop iterations (`4 - olen` at entry).  An I/O error or
a read count above 1 sets `err` and aborts; a read count of 0 sets `eof` and
breaks; a read count of 1 stores the byte and continues. -/
def fillGo : Nat → CharBuffer → CharBuffer
  | 0, s => s
  | Nat.succ fuel, s =>
    match s.inner with
    | [] => { s with eof := true }
    | ReadEv.rerr :: rest => { s with inner := rest, err := true }
    | ReadEv.rcount 0 _ :: rest => { s with inner := rest, eof := true }
    | ReadEv.rcount 1 b :: rest =>
        fillGo fuel { s with inner := rest, buf := s.buf.set s.bsz b, bsz := s.bsz + 1 }
    | ReadEv.rcount (Nat.succ (Nat.succ _)) _ :: rest =>
        { s with inner := rest, err := true }

/-- The guarded fill step of `CharBuffer::next`:
`if !self.eof && self.bsz < 4 { for i in olen .. 4 { ... } }`. -/
def fill (s : CharBuffer) : CharBuffer :=
  if s.eof = false ∧ s.bsz < 4 then fillGo (4 - s.bsz) s else s

/-- The boundary scan of `CharBuffer::next`
(`while i < len { if boundary(buf[i]) { break } i += 1 }`), the loop counted
down by the remaining iterations `rem = len - i`: starting at index 1,
advance past non-boundary (continuation) bytes, returning the candidate
sequence length `i`. -/
def scanGo (buf : List Nat) : Nat → Nat → Nat
  | 0, i => i
  | Nat.succ rem, i =>
    if is_utf8_char_boundary (buf.getD i 0) then i else scanGo buf rem (i + 1)

/-- The buffer shift of `CharBuffer::next`:
`for j in i .. 4 { self.buf[j - i] = self.buf[j]; }`. -/
def shiftBuf (buf : List Nat) (i : Nat) : List Nat :=
  (List.range 4).map (fun k => if k + i < 4 then buf.getD (k + i) 0 else buf.getD k 0)

/-- The outcome of one `CharBuffer::next` call: `done` is `None`, `fail` is
`Some(Err(()))`, `char c` is `Some(Ok(c))`, and `panic` marks a runtime
assertion failure. -/
inductive NextRes where
  | done : NextRes
  | fail : NextRes
  | char : Char → NextRes
  | panic : NextRes
deriving DecidableEq, Repr

/-- Scalar resolution in `CharBuffer::next`, at candidate sequence length
`i`: interpret the first `i` pending bytes as UTF-8 (`from_utf8`); on
failure set the failed flag; on success check the defensive assertion
`assert_eq!(c.len_utf8(), i)`, then emit the scalar, shift the buffer down
by `i` and shrink the pending length. -/
def resolveAt (t : CharBuffer) (i : Nat) : NextRes × CharBuffer :=
  if validUtf8 (t.buf.take i) then
    match utf8DecodeFirst (t.buf.take i) with
    | some (c, _) =>
      if lenUtf8 c = i then
        (NextRes.char c, { t with buf := shiftBuf t.buf i, bsz := t.bsz - i })
      else (NextRes.panic, t)
    | none => (NextRes.panic, t)
  else (NextRes.fail, { t with err := true })

/-- The part of `CharBuffer::next` after the fill: `assert!(self.bsz <= 4)`,
the empty-buffer terminal check with `assert!(self.eof)`, the leading
boundary-byte check, the boundary scan and scalar resolution. -/
def nextCore (t : CharBuffer) : NextRes × CharBuffer :=
  if t.err then (NextRes.fail, t)
  else if 4 < t.bsz then (NextRes.panic, t)
  else if t.bsz = 0 then
    (if t.eof then (NextRes.done, t) else (NextRes.panic, t))
  else if is_utf8_char_boundary (t.buf.getD 0 0) = false then
    (NextRes.fail, { t with err := true })
  else resolveAt t (scanGo t.buf (t.bsz - 1) 1)

/-- `<CharBuffer<R> as Iterator>::next`, returning the yielded item together
with the updated decoder state. -/
def CharBuffer.next (s : CharBuffer) : NextRes × CharBuffer :=
  if s.err then (NextRes.fail, s)
  else if s.eof ∧ s.bsz = 0 then (NextRes.done, s)
  else nextCore (fill s)

/-- `CharBuffer::from_reader_state`; the `assert!(buf_len <= 4)` is modelled
by returning `none` (a panic) when the pending length exceeds 4. -/
def CharBuffer.from_reader_state (buf : List Nat) (buf_len : Nat) (inner : Reader) :
    Option CharBuffer :=
  if buf_len ≤ 4 then
    some { inner := inner, buf := buf, bsz := buf_len, eof := false, err := false }
  else none

/-- `CharBuffer::from_reader`: `from_reader_state([0; 4], 0, inner)`. -/
def CharBuffer.from_reader (inner : Reader) : CharBuffer :=
  { inner := inner, buf := [0, 0, 0, 0], bsz := 0, eof := false, err := false }

/-- `CharBuffer::into_reader_state`: the state tuple `(buf, bsz, inner)`,
tagged `Err` iff the failed flag is set. -/
def CharBuffer.into_reader_state (s : CharBuffer) :
    Except (List Nat × Nat × Reader) (List Nat × Nat × Reader) :=
  if s.err then Except.error (s.buf, s.bsz, s.inner)
  else Except.ok (s.buf, s.bsz, s.inner)

/-- The offset-tracking decoder `CharIndicesBuffer<R>`. -/
structure CharIndicesBuffer where
  buf : CharBuffer
  off : Nat
deriving DecidableEq, Repr

/-- The outcome of one `CharIndicesBuffer::next` call: `done` is `None`,
`fail off` is `Some(Err(off))`, `char off c` is `Some(Ok((off, c)))`, and
`panic` marks a runtime assertion failure in the inner decoder. -/
inductive CIRes where
  | done : CIRes
  | fail : Nat → CIRes
  | char : Nat → Char → CIRes
  | panic : CIRes
deriving DecidableEq, Repr

/-- `<CharIndicesBuffer<R> as Iterator>::next`. -/
def CharIndicesBuffer.next (s : CharIndicesBuffer) : CIRes × CharIndicesBuffer :=
  match CharBuffer.next s.buf with
  | (NextRes.done, b) => (CIRes.done, { s with buf := b })
  | (NextRes.fail, b) => (CIRes.fail s.off, { s with buf := b })
  | (NextRes.char c, b) => (CIRes.char s.off c, { buf := b, off := s.off + lenUtf8 c })
  | (NextRes.panic, b) => (CIRes.panic, { s with buf := b })

/-- `CharIndicesBuffer::from_reader_state`. -/
def CharIndicesBuffer.from_reader_state (offset : Nat) (buf : List Nat) (buf_len : Nat)
    (inner : Reader) : Option CharIndicesBuffer :=
  (CharBuffer.from_reader_state buf buf_len inner).map (fun b => { buf := b, off := offset })

/-- `CharIndicesBuffer::from_reader`: `from_reader_state(0, [0; 4], 0, inner)`. -/
def CharIndicesBuffer.from_reader (inner : Reader) : CharIndicesBuffer :=
  { buf := CharBuffer.from_reader inner, off := 0 }

/-- `CharIndicesBuffer::into_reader_state`: the tuple
`(off, buf, bsz, inner)`, tagged `Err` iff the failed flag is set. -/
def CharIndicesBuffer.into_reader_state (s : CharIndicesBuffer) :
    Except (Nat × List Nat × Nat × Reader) (Nat × List Nat × Nat × Reader) :=
  if s.buf.err then Except.error (s.off, s.buf.buf, s.buf.bsz, s.buf.inner)
  else Except.ok (s.off, s.buf.buf, s.buf.bsz, s.buf.inner)

/-- The payload of an extracted state, ignoring the success/failure tag. -/
def stateOf {α : Type} : Except α α → α
  | Except.error a => a
  | Except.ok a => a

/-- Call `CharIndicesBuffer::next` `n` times, collecting the yielded items
and the final state. -/
def ciRunN : Nat → CharIndicesBuffer → List CIRes × CharIndicesBuffer
  | 0, s => ([], s)
  | Nat.succ n, s =>
    let r := CharIndicesBuffer.next s
    let rs := ciRunN n r.2
    (r.1 :: rs.1, rs.2)

/-- Iterate the state of `CharBuffer::next` `n` times. -/
def cbIter : Nat → CharBuffer → CharBuffer
  | 0, s => s
  | Nat.succ n, s => cbIter n (CharBuffer.next s).2

/-- The expected output of decoding `cs`, starting at byte offset `o`: each
scalar paired with the cumulative encoded length of its predecessors. -/
def expectedOuts : List Char → Nat → List CIRes
  | [], _ => []
  | c :: cs, o => CIRes.char o c :: expectedOuts cs (o + lenUtf8 c)

/-- Failure of the scalar-resolution phase on a buffer with `bsz` pending
bytes: the leading byte fails the boundary test, or the scanned candidate
sequence fails UTF-8 interpretation. -/
def resolutionFails (buf : List Nat) (bsz : Nat) : Prop :=
  is_utf8_char_boundary (buf.getD 0 0) = false ∨
  validUtf8 (buf.take (scanGo buf (bsz - 1) 1)) = false

/-- Invariant of every decoder state reachable from a fresh decoder over a
pure byte source: well-formed buffer, a pure remaining source, end-of-input
only after draining the source with a non-full buffer, and — when failed —
a pending buffer that deterministically re-fails resolution. -/
def PureInv (s : CharBuffer) : Prop :=
  s.buf.length = 4 ∧ s.bsz ≤ 4 ∧ (∃ bs, s.inner = byteEvents bs) ∧
  (s.eof = true → s.inner = [] ∧ s.bsz < 4) ∧
  (s.err = true → 1 ≤ s.bsz ∧ (s.bsz = 4 ∨ s.inner = []) ∧ resolutionFails s.buf s.bsz)

/-- Extract a decoder's state tuple (whatever its success/failure tag) and
rebuild a decoder from it via `from_reader_state`. -/
def resumeFrom (s : CharIndicesBuffer) : Option CharIndicesBuffer :=
  match stateOf s.into_reader_state with
  | (off, buf, len, inner) => CharIndicesBuffer.from_reader_state off buf len inner

/-- Round-trip invariant: the decoder is not failed, its buffer is the
4-byte array with `bsz ≤ 4` pending bytes, the pending bytes followed by the
bytes still in the source are exactly `L`, and the end-of-input flag is only
set once the source is drained with a non-full buffer. -/
def RTinv (s : CharBuffer) (L : List Nat) : Prop :=
  s.err = false ∧ s.buf.length = 4 ∧ s.bsz ≤ 4 ∧
  (s.eof = true → s.inner = [] ∧ s.bsz < 4) ∧
  ∃ bs, s.inner = byteEvents bs ∧ s.buf.take s.bsz ++ bs = L

/-- State of the decoder right after the fill phase, over a pure byte
source: the buffer now holds `min 4 L.length` bytes of the remaining
stream `L`. -/
def FillOut (t : CharBuffer) (L : List Nat) : Prop :=
  t.err = false ∧ t.buf.length = 4 ∧ t.bsz = min 4 L.length ∧
  ∃ bs, t.inner = byteEvents bs ∧ t.buf.take t.bsz ++ bs = L ∧
    (t.eof = true → bs = [] ∧ t.bsz < 4)

/-! ### Basic lemmas about the fill loop and the iterator step -/

lemma fillGo_bsz_mono : ∀ (fuel : Nat) (s : CharBuffer), s.bsz ≤ (fillGo fuel s).bsz := by
  intro fuel
  induction fuel with
  | zero => intro s; simp [fillGo]
  | succ f ih =>
    rintro ⟨inner, buf, bsz, eof, err⟩
    match inner with
    | [] => simp [fillGo]
    | ReadEv.rerr :: rest => simp [fillGo]
    | ReadEv.rcount 0 b :: rest => simp [fillGo]
    | ReadEv.rcount 1 b :: rest =>
      have := ih ⟨rest, buf.set bsz b, bsz + 1, eof, err⟩
      simp only [fillGo] at this ⊢
      omega
    | ReadEv.rcount (n + 2) b :: rest => simp [fillGo]

lemma fillGo_bsz_le : ∀ (fuel : Nat) (s : CharBuffer), (fillGo fuel s).bsz ≤ s.bsz + fuel := by
  intro fuel
  induction fuel with
  | zero => intro s; simp [fillGo]
  | succ f ih =>
    rintro ⟨inner, buf, bsz, eof, err⟩
    match inner with
    | [] => simp [fillGo]
    | ReadEv.rerr :: rest => simp [fillGo]
    | ReadEv.rcount 0 b :: rest => simp [fillGo]
    | ReadEv.rcount 1 b :: rest =>
      have := ih ⟨rest, buf.set bsz b, bsz + 1, eof, err⟩
      simp only [fillGo] at this ⊢
      omega
    | ReadEv.rcount (n + 2) b :: rest => simp [fillGo]

lemma fillGo_buf_len : ∀ (fuel : Nat) (s : CharBuffer),
    (fillGo fuel s).buf.length = s.buf.length := by
  intro fuel
  induction fuel with
  | zero => intro s; simp [fillGo]
  | succ f ih =>
    rintro ⟨inner, buf, bsz, eof, err⟩
    match inner with
    | [] => simp [fillGo]
    | ReadEv.rerr :: rest => simp [fillGo]
    | ReadEv.rcount 0 b :: rest => simp [fillGo]
    | ReadEv.rcount 1 b :: rest =>
      have := ih ⟨rest, buf.set bsz b, bsz + 1, eof, err⟩
      simp only [fillGo] at this ⊢
      simpa using this
    | ReadEv.rcount (n + 2) b :: rest => simp [fillGo]

lemma fill_bsz_le (s : CharBuffer) (h : s.bsz ≤ 4) : (fill s).bsz ≤ 4 := by
  unfold fill
  split
  · have := fillGo_bsz_le (4 - s.bsz) s
    omega
  · exact h

lemma fill_buf_len (s : CharBuffer) : (fill s).buf.length = s.buf.length := by
  unfold fill
  split
  · exact fillGo_buf_len _ s
  · rfl

lemma shiftBuf_length (buf : List Nat) (i : Nat) : (shiftBuf buf i).length = 4 := by
  simp [shiftBuf]

/-- If a positive-fuel fill did not error and did not increase `bsz`, it hit
end of input. -/
lemma fillGo_eof_of_stuck (f : Nat) (s : CharBuffer)
    (herr : (fillGo (f + 1) s).err = false)
    (hb : (fillGo (f + 1) s).bsz ≤ s.bsz) : (fillGo (f + 1) s).eof = true := by
  obtain ⟨inner, buf, bsz, eof, err⟩ := s
  match inner with
  | [] => simp [fillGo]
  | ReadEv.rerr :: rest => simp [fillGo] at herr
  | ReadEv.rcount 0 b :: rest => simp [fillGo]
  | ReadEv.rcount 1 b :: rest =>
    exfalso
    have := fillGo_bsz_mono f ⟨rest, buf.set bsz b, bsz + 1, eof, err⟩
    simp only [fillGo] at hb
    simp at this
    omega
  | ReadEv.rcount (n + 2) b :: rest => simp [fillGo] at herr

lemma resolveAt_bsz_le (t : CharBuffer) (i : Nat) (h : t.bsz ≤ 4) :
    (resolveAt t i).2.bsz ≤ 4 := by
  unfold resolveAt
  split
  · split
    · split
      · simp; omega
      · exact h
    · exact h
  · exact h

lemma nextCore_bsz_le (t : CharBuffer) (h : t.bsz ≤ 4) : (nextCore t).2.bsz ≤ 4 := by
  unfold nextCore
  split
  · exact h
  · split
    · exact h
    · split
      · split <;> exact h
      · split
        · exact h
        · exact resolveAt_bsz_le _ _ h

lemma next_bsz_le (s : CharBuffer) (h : s.bsz ≤ 4) : (CharBuffer.next s).2.bsz ≤ 4 := by
  unfold CharBuffer.next
  split
  · exact h
  · split
    · exact h
    · exact nextCore_bsz_le _ (fill_bsz_le s h)

lemma resolveAt_buf_len (t : CharBuffer) (i : Nat) (h : t.buf.length = 4) :
    (resolveAt t i).2.buf.length = 4 := by
  unfold resolveAt
  split
  · split
    · split
      · simpa using shiftBuf_length _ _
      · exact h
    · exact h
  · exact h

lemma nextCore_buf_len (t : CharBuffer) (h : t.buf.length = 4) :
    (nextCore t).2.buf.length = 4 := by
  unfold nextCore
  split
  · exact h
  · split
    · exact h
    · split
      · split <;> exact h
      · split
        · exact h
        · exact resolveAt_buf_len _ _ h

lemma next_buf_len (s : CharBuffer) (h : s.buf.length = 4) :
    (CharBuffer.next s).2.buf.length = 4 := by
  unfold CharBuffer.next
  split
  · exact h
  · split
    · exact h
    · exact nextCore_buf_len _ (by rw [fill_buf_len]; exact h)

/-- Sticky failure at the `CharBuffer` level: a failed decoder returns the
failure signal and does not change state (in particular it does not read). -/
lemma cb_next_of_err (s : CharBuffer) (h : s.err = true) :
    CharBuffer.next s = (NextRes.fail, s) := by
  simp [CharBuffer.next, h]

/-- Sticky failure at the `CharIndicesBuffer` level. -/
lemma ci_next_of_err (s : CharIndicesBuffer) (h : s.buf.err = true) :
    CharIndicesBuffer.next s = (CIRes.fail s.off, s) := by
  simp [CharIndicesBuffer.next, cb_next_of_err s.buf h]

lemma ciRunN_of_err (n : Nat) (s : CharIndicesBuffer) (h : s.buf.err = true) :
    ciRunN n s = (List.replicate n (CIRes.fail s.off), s) := by
  induction n with
  | zero => simp [ciRunN]
  | succ n ih => simp [ciRunN, ci_next_of_err s h, ih, List.replicate]

lemma lenUtf8_bounds (c : Char) : 1 ≤ lenUtf8 c ∧ lenUtf8 c ≤ 4 := by
  unfold lenUtf8
  split <;> [omega; split <;> [omega; split <;> omega]]

/-! ### UTF-8 facts -/

lemma toNat_ofNat_valid (n : Nat) (h : n.isValidChar) : (Char.ofNat n).toNat = n := by
  simp only [Char.ofNat, h, dif_pos, Char.ofNatAux, Char.toNat, UInt32.toNat,
    BitVec.toNat_ofNatLt]

lemma lenUtf8_ofNat (n : Nat) (h : n.isValidChar) :
    lenUtf8 (Char.ofNat n) =
      if n < 0x80 then 1 else if n < 0x800 then 2 else if n < 0x10000 then 3 else 4 := by
  simp only [lenUtf8, toNat_ofNat_valid n h]

lemma not_boundary_iff (b : Nat) (hb : b < 256) :
    is_utf8_char_boundary b = false ↔ (0x80 ≤ b ∧ b < 0xC0) := by
  simp only [is_utf8_char_boundary, toI8, Nat.mod_eq_of_lt hb, decide_eq_false_iff_not,
    not_le]
  split <;> omega

lemma cont3ok_ranges (b0 b1 : Nat) (h : cont3ok b0 b1 = true) :
    0x80 ≤ b1 ∧ b1 < 0xC0 ∧ (b0 = 0xE0 → 0xA0 ≤ b1) ∧ (b0 = 0xED → b1 < 0xA0) := by
  unfold cont3ok at h
  split at h
  · simp only [decide_eq_true_eq] at h
    rename_i he
    exact ⟨by omega, by omega, fun _ => by omega, fun hed => by omega⟩
  · split at h
    · simp only [decide_eq_true_eq] at h
      rename_i hne hed
      exact ⟨by omega, by omega, fun he => absurd he hne, fun _ => by omega⟩
    · simp only [isCont, decide_eq_true_eq] at h
      rename_i hne hned
      exact ⟨by omega, by omega, fun he => absurd he hne, fun hed => absurd hed hned⟩

lemma cont4ok_ranges (b0 b1 : Nat) (h : cont4ok b0 b1 = true) :
    0x80 ≤ b1 ∧ b1 < 0xC0 ∧ (b0 = 0xF0 → 0x90 ≤ b1) ∧ (b0 = 0xF4 → b1 < 0x90) := by
  unfold cont4ok at h
  split at h
  · simp only [decide_eq_true_eq] at h
    rename_i he
    exact ⟨by omega, by omega, fun _ => by omega, fun hf4 => by omega⟩
  · split at h
    · simp only [decide_eq_true_eq] at h
      rename_i hne hf4
      exact ⟨by omega, by omega, fun he => absurd he hne, fun _ => by omega⟩
    · simp only [isCont, decide_eq_true_eq] at h
      rename_i hne hnef
      exact ⟨by omega, by omega, fun he => absurd he hne, fun hf4 => absurd hf4 hnef⟩

lemma not_boundary_mod (b : Nat) (h : is_utf8_char_boundary b = false) :
    0x80 ≤ b % 256 ∧ b % 256 < 0xC0 := by
  simp only [is_utf8_char_boundary, toI8, decide_eq_false_iff_not, not_le] at h
  split at h <;> omega

/-- A byte that fails the boundary test cannot begin a well-formed UTF-8
sequence. -/
lemma decode_none_of_not_boundary (b : Nat) (t : List Nat)
    (h : is_utf8_char_boundary b = false) : utf8DecodeFirst (b :: t) = none := by
  have hb := not_boundary_mod b h
  have h1 : ¬ (b < 0x80) := by omega
  by_cases h2 : b < 0xC2
  · simp only [utf8DecodeFirst]
    rw [if_neg h1, if_pos h2]
  · have h3 : ¬ b < 0xE0 := by omega
    have h4 : ¬ b < 0xF0 := by omega
    have h5 : ¬ b < 0xF5 := by omega
    simp only [utf8DecodeFirst]
    rw [if_neg h1, if_neg h2, if_neg h3, if_neg h4, if_neg h5]

/-- Structural facts about a successful decode: the scalar's encoded length
is between 1 and 4, bounded by the input length, and the remainder is the
input with exactly that many bytes dropped. -/
lemma utf8DecodeFirst_props : ∀ (l : List Nat) (c : Char) (rest : List Nat),
    utf8DecodeFirst l = some (c, rest) →
    1 ≤ lenUtf8 c ∧ lenUtf8 c ≤ l.length ∧ rest = l.drop (lenUtf8 c) := by
  intro l c rest h
  match l with
  | [] => simp [utf8DecodeFirst] at h
  | b0 :: t =>
    simp only [utf8DecodeFirst] at h
    split at h
    · rename_i h0
      injection h with h
      cases h
      have hv : Nat.isValidChar b0 := Or.inl (by omega)
      rw [lenUtf8_ofNat b0 hv, if_pos h0]
      exact ⟨by omega, by simp, rfl⟩
    · split at h
      · exact Option.noConfusion h
      · split at h
        · -- 2-byte lead
          rename_i h0 h1 h2
          split at h
          · split at h
            · rename_i b1 t1 hc1
              injection h with h
              cases h
              simp only [isCont, decide_eq_true_eq] at hc1
              have hv : Nat.isValidChar ((b0 - 0xC0) * 64 + (b1 - 0x80)) :=
                Or.inl (by omega)
              rw [lenUtf8_ofNat _ hv, if_neg (by omega), if_pos (by omega)]
              exact ⟨by omega, by simp, rfl⟩
            · exact Option.noConfusion h
          · exact Option.noConfusion h
        · split at h
          · -- 3-byte lead
            rename_i h0 h1 h2 h3
            split at h
            · rename_i b1 b2 t2
              split at h
              · rename_i hcond
                obtain ⟨hb1, hb2⟩ := hcond
                injection h with h
                cases h
                simp only [isCont, decide_eq_true_eq] at hb2
                obtain ⟨hl, hu, hE0, hED⟩ := cont3ok_ranges b0 b1 hb1
                have hge : 0x800 ≤ (b0 - 0xE0) * 4096 + (b1 - 0x80) * 64 + (b2 - 0x80) := by
                  by_cases he : b0 = 0xE0
                  · have := hE0 he
                    subst he
                    omega
                  · have : 1 ≤ b0 - 0xE0 := by omega
                    omega
                have hv : Nat.isValidChar
                    ((b0 - 0xE0) * 4096 + (b1 - 0x80) * 64 + (b2 - 0x80)) := by
                  by_cases hed : b0 = 0xED
                  · have := hED hed
                    subst hed
                    exact Or.inl (by omega)
                  · rcases Nat.lt_or_ge ((b0 - 0xE0) * 4096 + (b1 - 0x80) * 64 + (b2 - 0x80))
                      0xD800 with hlt | hge2
                    · exact Or.inl hlt
                    · refine Or.inr ⟨?_, by omega⟩
                      -- not the 0xED page, so the code point clears the surrogates
                      have hne13 : b0 - 0xE0 ≠ 13 := by omega
                      omega
                rw [lenUtf8_ofNat _ hv, if_neg (by omega), if_neg (by omega),
                  if_pos (by omega)]
                exact ⟨by omega, by simp, rfl⟩
              · exact Option.noConfusion h
            · exact Option.noConfusion h
          · split at h
            · -- 4-byte lead
              rename_i h0 h1 h2 h3 h4
              split at h
              · rename_i b1 b2 b3 t3
                split at h
                · rename_i hcond
                  obtain ⟨hb1, hb2, hb3⟩ := hcond
                  injection h with h
                  cases h
                  simp only [isCont, decide_eq_true_eq] at hb2 hb3
                  obtain ⟨hl, hu, hF0, hF4⟩ := cont4ok_ranges b0 b1 hb1
                  have hge : 0x10000 ≤ (b0 - 0xF0) * 262144 + (b1 - 0x80) * 4096
                      + (b2 - 0x80) * 64 + (b3 - 0x80) := by
                    by_cases he : b0 = 0xF0
                    · have := hF0 he
                      subst he
                      omega
                    · have : 1 ≤ b0 - 0xF0 := by omega
                      omega
                  have hlt : (b0 - 0xF0) * 262144 + (b1 - 0x80) * 4096
                      + (b2 - 0x80) * 64 + (b3 - 0x80) < 0x110000 := by
                    by_cases he : b0 = 0xF4
                    · have := hF4 he
                      subst he
                      omega
                    · have : b0 - 0xF0 ≤ 3 := by omega
                      omega
                  have hv : Nat.isValidChar ((b0 - 0xF0) * 262144 + (b1 - 0x80) * 4096
                      + (b2 - 0x80) * 64 + (b3 - 0x80)) :=
                    Or.inr ⟨by omega, by omega⟩
                  rw [lenUtf8_ofNat _ hv, if_neg (by omega), if_neg (by omega),
                    if_neg (by omega)]
                  exact ⟨by omega, by simp, rfl⟩
                · exact Option.noConfusion h
              · exact Option.noConfusion h
            · exact Option.noConfusion h

/-- A valid nonempty UTF-8 sequence all of whose bytes after the first fail
the boundary test decodes as exactly one scalar spanning the whole
sequence. -/
lemma valid_nonboundary_single (l : List Nat) (hne : l ≠ [])
    (hv : validUtf8 l = true)
    (hnb : ∀ j, 1 ≤ j → j < l.length → is_utf8_char_boundary (l.getD j 0) = false) :
    ∃ c, utf8DecodeFirst l = some (c, []) ∧ lenUtf8 c = l.length := by
  match l with
  | [] => exact absurd rfl hne
  | b0 :: t =>
    unfold validUtf8 at hv
    cases hd : utf8DecodeFirst (b0 :: t) with
    | none => simp [validUtf8Go, hd] at hv
    | some p =>
      obtain ⟨c, rest⟩ := p
      obtain ⟨hge1, hlen, hrest⟩ := utf8DecodeFirst_props _ _ _ hd
      match hr : rest with
      | [] =>
        refine ⟨c, rfl, ?_⟩
        have : (b0 :: t).length - lenUtf8 c = 0 := by
          have := congrArg List.length hrest.symm
          simpa using this
        omega
      | r0 :: rt =>
        exfalso
        subst hr
        have hkpos : lenUtf8 c < (b0 :: t).length := by
          by_contra hc
          rw [List.drop_eq_nil_of_le (by omega)] at hrest
          cases hrest
        have hr0 : (b0 :: t).getD (lenUtf8 c) 0 = r0 := by
          have hh := List.head?_drop (b0 :: t) (lenUtf8 c)
          rw [← hrest] at hh
          simp only [List.head?_cons] at hh
          simp [List.getD, ← hh]
        have hnb0 : is_utf8_char_boundary r0 = false := by
          rw [← hr0]
          exact hnb (lenUtf8 c) hge1 hkpos
        have hnone := decode_none_of_not_boundary r0 rt hnb0
        rw [show (b0 :: t).length = ((b0 :: t).length - 1) + 1 from by simp] at hv
        simp only [validUtf8Go, hd] at hv
        rcases hfuel : (b0 :: t).length - 1 with _ | f <;> rw [hfuel] at hv <;>
          simp [validUtf8Go, hnone] at hv

/-! ### Scan facts -/

lemma scanGo_ge : ∀ (rem i : Nat) (buf : List Nat), i ≤ scanGo buf rem i := by
  intro rem
  induction rem with
  | zero => intro i buf; simp [scanGo]
  | succ r ih =>
    intro i buf
    simp only [scanGo]
    split
    · exact Nat.le_refl i
    · exact Nat.le_trans (by omega) (ih (i + 1) buf)

lemma scanGo_le : ∀ (rem i : Nat) (buf : List Nat), scanGo buf rem i ≤ i + rem := by
  intro rem
  induction rem with
  | zero => intro i buf; simp [scanGo]
  | succ r ih =>
    intro i buf
    simp only [scanGo]
    split
    · omega
    · have := ih (i + 1) buf
      omega

lemma getD_append_left (A B : List Nat) (j : Nat) (h : j < A.length) :
    (A ++ B).getD j 0 = A.getD j 0 := by
  simp [List.getD, List.getElem?_append, h]

lemma getD_append_right (A B : List Nat) (j : Nat) (h : A.length ≤ j) :
    (A ++ B).getD j 0 = B.getD (j - A.length) 0 := by
  simp [List.getD, List.getElem?_append_right h]

lemma getD_take (l : List Nat) (m j : Nat) (h : j < m) :
    (l.take m).getD j 0 = l.getD j 0 := by
  simp [List.getD, List.getElem?_take, h]

/-- The scan returns the first boundary position at or after its start. -/
lemma scanGo_stops (buf : List Nat) : ∀ (rem i L : Nat), i ≤ L → L ≤ i + rem →
    (∀ j, i ≤ j → j < L → is_utf8_char_boundary (buf.getD j 0) = false) →
    (L < i + rem → is_utf8_char_boundary (buf.getD L 0) = true) →
    scanGo buf rem i = L := by
  intro rem
  induction rem with
  | zero =>
    intro i L h1 h2 _ _
    simp only [scanGo]
    omega
  | succ r ih =>
    intro i L h1 h2 hnb hb
    simp only [scanGo]
    rcases Nat.eq_or_lt_of_le h1 with rfl | hlt
    · rw [if_pos (hb (by omega))]
    · have hih := ih (i + 1) L hlt (by omega) (fun j hj1 hj2 => hnb j (by omega) hj2)
        (fun hL => hb (by omega))
      rw [hnb i (Nat.le_refl i) hlt]
      simpa using hih

lemma scanGo_not_boundary : ∀ (rem i j : Nat) (buf : List Nat), i ≤ j →
    j < scanGo buf rem i → is_utf8_char_boundary (buf.getD j 0) = false := by
  intro rem
  induction rem with
  | zero =>
    intro i j buf hij hj
    simp [scanGo] at hj
    omega
  | succ r ih =>
    intro i j buf hij hj
    simp only [scanGo] at hj
    split at hj
    · omega
    · rename_i hbi
      rcases Nat.eq_or_lt_of_le hij with rfl | hlt
    -- at `j = i` the byte failed the boundary test; otherwise recurse
      · simpa using hbi
      · exact ih (i + 1) j buf (by omega) hj

/-! ### Encoding facts -/

lemma boundary_iff (b : Nat) (hb : b < 256) :
    is_utf8_char_boundary b = true ↔ (b < 0x80 ∨ 0xC0 ≤ b) := by
  simp only [is_utf8_char_boundary, toI8, Nat.mod_eq_of_lt hb, decide_eq_true_eq]
  split <;> omega

lemma toNat_isValidChar (c : Char) : c.toNat.isValidChar := by
  have h := c.valid
  simpa [UInt32.isValidChar] using h

lemma toNat_lt (c : Char) : c.toNat < 0x110000 := by
  rcases toNat_isValidChar c with h | h <;> omega

lemma utf8Encode_length (c : Char) : (utf8Encode c).length = lenUtf8 c := by
  simp only [utf8Encode, lenUtf8]
  split
  · rfl
  · split
    · rfl
    · split <;> rfl

/-- Every byte produced by the encoder is a byte (below 256); the first one
passes the boundary test, the later ones fail it. -/
lemma utf8Encode_bytes (c : Char) :
    (∀ j, j < lenUtf8 c → (utf8Encode c).getD j 0 < 256) ∧
    is_utf8_char_boundary ((utf8Encode c).getD 0 0) = true ∧
    (∀ j, 1 ≤ j → j < lenUtf8 c → is_utf8_char_boundary ((utf8Encode c).getD j 0) = false) := by
  have hlt := toNat_lt c
  simp only [utf8Encode, lenUtf8]
  split
  · rename_i h1
    refine ⟨?_, ?_, ?_⟩
    · intro j hj
      interval_cases j <;> simp [List.getD] <;> omega
    · rw [boundary_iff _ (by simp [List.getD]; omega)]
      simp [List.getD] <;> omega
    · intro j hj1 hj2
      omega
  · split
    · rename_i h1 h2
      refine ⟨?_, ?_, ?_⟩
      · intro j hj
        interval_cases j <;> simp [List.getD] <;> omega
      · rw [boundary_iff _ (by simp [List.getD]; omega)]
        simp [List.getD] <;> omega
      · intro j hj1 hj2
        interval_cases j
        rw [not_boundary_iff _ (by simp [List.getD]; omega)]
        simp [List.getD] <;> omega
    · split
      · rename_i h1 h2 h3
        refine ⟨?_, ?_, ?_⟩
        · intro j hj
          interval_cases j <;> simp [List.getD] <;> omega
        · rw [boundary_iff _ (by simp [List.getD]; omega)]
          simp [List.getD] <;> omega
        · intro j hj1 hj2
          interval_cases j <;>
            · rw [not_boundary_iff _ (by simp [List.getD]; omega)]
              simp [List.getD] <;> omega
      · rename_i h1 h2 h3
        refine ⟨?_, ?_, ?_⟩
        · intro j hj
          interval_cases j <;> simp [List.getD] <;> omega
        · rw [boundary_iff _ (by simp [List.getD]; omega)]
          simp [List.getD] <;> omega
        · intro j hj1 hj2
          interval_cases j <;>
            · rw [not_boundary_iff _ (by simp [List.getD]; omega)]
              simp [List.getD] <;> omega

/-- Decoding inverts encoding, leaving any appended remainder intact. -/
lemma decode_encode (c : Char) (r : List Nat) :
    utf8DecodeFirst (utf8Encode c ++ r) = some (c, r) := by
  have hval := toNat_isValidChar c
  have hlt := toNat_lt c
  have hofnat := Char.ofNat_toNat c
  unfold utf8Encode
  by_cases h1 : c.toNat < 0x80
  · rw [if_pos h1]
    simp only [List.cons_append, List.nil_append, utf8DecodeFirst]
    rw [if_pos h1, hofnat]
  · rw [if_neg h1]
    by_cases h2 : c.toNat < 0x800
    · rw [if_pos h2]
      simp only [List.cons_append, List.nil_append, utf8DecodeFirst]
      rw [if_neg (by omega), if_neg (by omega), if_pos (by omega),
        if_pos (by simp only [isCont, decide_eq_true_eq]; omega)]
      rw [show (0xC0 + c.toNat / 64 - 0xC0) * 64 + (0x80 + c.toNat % 64 - 0x80) = c.toNat
        from by omega, hofnat]
    · by_cases h3 : c.toNat < 0x10000
      · rw [if_neg h2, if_pos h3]
        have hcont3 : cont3ok (0xE0 + c.toNat / 4096) (0x80 + c.toNat / 64 % 64) = true := by
          unfold cont3ok
          split
          · rename_i he
            simp only [decide_eq_true_eq]
            omega
          · split
            · rename_i hne hed
              simp only [decide_eq_true_eq]
              rcases hval with hv | hv <;> omega
            · simp only [isCont, decide_eq_true_eq]
              omega
        simp only [List.cons_append, List.nil_append, utf8DecodeFirst]
        rw [if_neg (by omega), if_neg (by omega), if_neg (by omega), if_pos (by omega),
          if_pos ⟨hcont3, by simp only [isCont, decide_eq_true_eq]; omega⟩]
        rw [show (0xE0 + c.toNat / 4096 - 0xE0) * 4096 + (0x80 + c.toNat / 64 % 64 - 0x80) * 64
            + (0x80 + c.toNat % 64 - 0x80) = c.toNat from by omega, hofnat]
      · rw [if_neg h2, if_neg h3]
        have hcont4 : cont4ok (0xF0 + c.toNat / 262144) (0x80 + c.toNat / 4096 % 64) = true := by
          unfold cont4ok
          split
          · rename_i he
            simp only [decide_eq_true_eq]
            omega
          · split
            · rename_i hne hf4
              simp only [decide_eq_true_eq]
              omega
            · simp only [isCont, decide_eq_true_eq]
              omega
        simp only [List.cons_append, List.nil_append, utf8DecodeFirst]
        rw [if_neg (by omega), if_neg (by omega), if_neg (by omega), if_neg (by omega),
          if_pos (by omega),
          if_pos ⟨hcont4, by simp only [isCont, decide_eq_true_eq]; omega,
            by simp only [isCont, decide_eq_true_eq]; omega⟩]
        rw [show (0xF0 + c.toNat / 262144 - 0xF0) * 262144
            + (0x80 + c.toNat / 4096 % 64 - 0x80) * 4096
            + (0x80 + c.toNat / 64 % 64 - 0x80) * 64
            + (0x80 + c.toNat % 64 - 0x80) = c.toNat from by omega, hofnat]

lemma validUtf8_encode (c : Char) : validUtf8 (utf8Encode c) = true := by
  have hd : utf8DecodeFirst (utf8Encode c) = some (c, []) := by
    simpa using decode_encode c []
  obtain ⟨b0, t, henc⟩ : ∃ b0 t, utf8Encode c = b0 :: t := by
    rcases hh : utf8Encode c with _ | ⟨b0, t⟩
    · exfalso
      have hle := utf8Encode_length c
      have hb := lenUtf8_bounds c
      rw [hh] at hle
      simp at hle
      omega
    · exact ⟨b0, t, rfl⟩
  rw [henc] at hd ⊢
  unfold validUtf8
  simp [validUtf8Go, hd]

/-! ### The fill phase over a pure byte source -/

lemma take_set_succ (l : List Nat) (k b : Nat) (h : k < l.length) :
    (l.set k b).take (k + 1) = l.take k ++ [b] := by
  induction l generalizing k with
  | nil => simp at h
  | cons x xs ih =>
    cases k with
    | zero => simp
    | succ k => simp [ih k (by simpa using h)]

lemma fillGo_pure : ∀ (fuel : Nat) (s : CharBuffer) (bs : List Nat),
    s.inner = byteEvents bs → s.err = false → s.bsz + fuel ≤ s.buf.length →
    (fillGo fuel s).err = false ∧
    (fillGo fuel s).bsz = s.bsz + min fuel bs.length ∧
    (fillGo fuel s).buf.length = s.buf.length ∧
    (fillGo fuel s).buf.take (s.bsz + min fuel bs.length) =
      s.buf.take s.bsz ++ bs.take fuel ∧
    (fillGo fuel s).inner = byteEvents (bs.drop fuel) ∧
    (fillGo fuel s).eof = (s.eof || decide (bs.length < fuel)) := by
  intro fuel
  induction fuel with
  | zero =>
    intro s bs hi herr hfit
    simp [fillGo, hi, herr]
  | succ f ih =>
    rintro ⟨inner, buf, bsz, eof, err⟩ bs hi herr hfit
    dsimp only at hi herr hfit
    subst hi herr
    match bs with
    | [] =>
      simp [fillGo, byteEvents]
    | b :: bs2 =>
      have hstep := ih ⟨byteEvents bs2, buf.set bsz b, bsz + 1, eof, false⟩ bs2 rfl rfl
        (by simp; omega)
      dsimp only at hstep
      obtain ⟨e1, e2, e3, e4, e5, e6⟩ := hstep
      have hred : fillGo (f + 1) ⟨byteEvents (b :: bs2), buf, bsz, eof, false⟩ =
          fillGo f ⟨byteEvents bs2, buf.set bsz b, bsz + 1, eof, false⟩ := by
        simp [fillGo, byteEvents]
      rw [hred]
      dsimp only
      refine ⟨e1, by rw [e2]; simp; omega, by rw [e3]; simp, ?_, by rw [e5]; simp,
        by rw [e6]; simp⟩
      rw [show bsz + min (f + 1) (b :: bs2).length = (bsz + 1) + min f bs2.length from by
        simp; omega]
      rw [e4]
      rw [take_set_succ buf bsz b (by omega)]
      simp

lemma fill_pure (s : CharBuffer) (L : List Nat) (h : RTinv s L) : FillOut (fill s) L := by
  obtain ⟨herr, hlen, hbsz, heof, bs, hinner, hcontent⟩ := h
  have hLlen : L.length = s.bsz + bs.length := by
    rw [← hcontent]
    simp
    omega
  by_cases hg : s.eof = false ∧ s.bsz < 4
  · rw [fill, if_pos hg]
    obtain ⟨e1, e2, e3, e4, e5, e6⟩ :=
      fillGo_pure (4 - s.bsz) s bs hinner herr (by omega)
    refine ⟨e1, by rw [e3, hlen], by rw [e2]; omega, bs.drop (4 - s.bsz), e5, ?_, ?_⟩
    · rw [show s.bsz + min (4 - s.bsz) bs.length = min 4 L.length from by omega] at e4
      rw [e2, show s.bsz + min (4 - s.bsz) bs.length = min 4 L.length from by omega]
      rw [e4, List.append_assoc, List.take_append_drop, hcontent]
    · rw [e6, hg.1]
      simp only [Bool.false_or, decide_eq_true_eq]
      intro hlt
      constructor
      · rw [List.drop_eq_nil_of_le (by omega)]
      · rw [e2]
        omega
  · rw [fill, if_neg hg]
    rcases he : s.eof with _ | _
    · -- eof is false, so the buffer must already be full
      have hb4 : s.bsz = 4 := by
        rcases Nat.lt_or_ge s.bsz 4 with hlt | hge
        · exact absurd ⟨he, hlt⟩ hg
        · omega
      refine ⟨herr, hlen, by omega, bs, hinner, hcontent, by rw [he]; intro hc; cases hc⟩
    · -- eof already set: source drained, short buffer
      obtain ⟨hi0, hblt⟩ := heof he
      have hbs : bs = [] := by
        rw [hinner] at hi0
        exact List.map_eq_nil_iff.mp hi0
      subst hbs
      simp only [List.length_nil] at hLlen
      refine ⟨herr, hlen, by omega, [], hinner, hcontent, fun _ => ⟨rfl, by omega⟩⟩

/-! ### The round-trip step -/

lemma utf8EncodeList_cons (c : Char) (cs : List Char) :
    utf8EncodeList (c :: cs) = utf8Encode c ++ utf8EncodeList cs := by
  simp [utf8EncodeList]

lemma shiftBuf_take (buf : List Nat) (i m : Nat) (hlen : buf.length = 4) (hm : m + i ≤ 4) :
    (shiftBuf buf i).take m = (buf.drop i).take m := by
  have hlen1 : ((shiftBuf buf i).take m).length = m := by
    rw [List.length_take, shiftBuf_length]
    omega
  have hlen2 : ((buf.drop i).take m).length = m := by
    rw [List.length_take, List.length_drop, hlen]
    omega
  apply List.ext_getElem (by omega)
  intro k hk1 hk2
  have hkm : k < m := by omega
  have hki : k + i < 4 := by omega
  simp only [List.getElem_take, List.getElem_drop, shiftBuf, List.getElem_map,
    List.getElem_range]
  rw [if_pos hki]
  rw [List.getD_eq_getElem?_getD, List.getElem?_eq_getElem (by omega)]
  simp only [Option.getD_some]
  congr 1
  omega

/-- Resolution at a candidate length matching a buffered encoding emits the
scalar and shifts the buffer. -/
lemma resolveAt_emit (t : CharBuffer) (c : Char)
    (hpre : t.buf.take (lenUtf8 c) = utf8Encode c) :
    resolveAt t (lenUtf8 c) =
      (NextRes.char c,
        { t with buf := shiftBuf t.buf (lenUtf8 c), bsz := t.bsz - lenUtf8 c }) := by
  unfold resolveAt
  rw [hpre, if_pos (validUtf8_encode c)]
  have hdec : utf8DecodeFirst (utf8Encode c) = some (c, []) := by
    simpa using decode_encode c []
  rw [hdec]
  simp

/-- The scalar-resolution phase on a filled buffer holding the encoding of
`c :: cs`: the scan finds exactly the length of `c`'s encoding, the UTF-8
interpretation succeeds, and `c` is emitted, leaving a state that again
satisfies the round-trip invariant for `cs`. -/
lemma nextCore_emit (t : CharBuffer) (c : Char) (cs : List Char)
    (h : FillOut t (utf8EncodeList (c :: cs))) :
    (nextCore t).1 = NextRes.char c ∧ RTinv (nextCore t).2 (utf8EncodeList cs) := by
  obtain ⟨herr, hlen, hbsz, bs, hinner, hcontent, heof⟩ := h
  obtain ⟨hL1, hL4⟩ := lenUtf8_bounds c
  have hencL := utf8Encode_length c
  have hcons := utf8EncodeList_cons c cs
  have hclen : (utf8EncodeList (c :: cs)).length = lenUtf8 c + (utf8EncodeList cs).length := by
    rw [hcons]
    simp [hencL]
  have hbsz4 : t.bsz ≤ 4 := by omega
  have hLle : lenUtf8 c ≤ t.bsz := by omega
  have htake_len : (t.buf.take t.bsz).length = t.bsz := by
    simp [List.length_take]
    omega
  -- reading the buffer reads the stream
  have hget : ∀ j, j < t.bsz → t.buf.getD j 0 = (utf8EncodeList (c :: cs)).getD j 0 := by
    intro j hj
    rw [← hcontent, getD_append_left _ _ _ (by omega), getD_take _ _ _ hj]
  -- bytes of the current scalar
  have hgetc : ∀ j, j < lenUtf8 c → t.buf.getD j 0 = (utf8Encode c).getD j 0 := by
    intro j hj
    rw [hget j (by omega), hcons, getD_append_left _ _ _ (by omega)]
  obtain ⟨hb256, hbhead, hbtail⟩ := utf8Encode_bytes c
  -- the leading byte passes the boundary test
  have hbound0 : is_utf8_char_boundary (t.buf.getD 0 0) = true := by
    rw [hgetc 0 (by omega)]
    exact hbhead
  -- the scan stops exactly at the end of the current scalar
  have hscan : scanGo t.buf (t.bsz - 1) 1 = lenUtf8 c := by
    apply scanGo_stops t.buf (t.bsz - 1) 1 (lenUtf8 c) hL1 (by omega)
    · intro j hj1 hj2
      rw [hgetc j (by omega)]
      exact hbtail j hj1 hj2
    · intro hlt
      have hlt2 : lenUtf8 c < t.bsz := by omega
      have hcs : (utf8EncodeList cs).length ≠ 0 := by omega
      match cs with
      | [] => simp [utf8EncodeList] at hcs
      | c2 :: cs2 =>
        rw [hget _ hlt2, hcons, getD_append_right _ _ _ (by omega), hencL, Nat.sub_self,
          utf8EncodeList_cons, getD_append_left _ _ _ (by
            have h1 := utf8Encode_length c2
            have h2 := lenUtf8_bounds c2
            omega)]
        exact (utf8Encode_bytes c2).2.1
  -- the first `lenUtf8 c` buffered bytes are exactly the encoding of `c`
  have hpre : t.buf.take (lenUtf8 c) = utf8Encode c := by
    have h1 : t.buf.take (lenUtf8 c) = (t.buf.take t.bsz).take (lenUtf8 c) := by
      rw [List.take_take, Nat.min_eq_left hLle]
    rw [h1, ← List.take_append_of_le_length (by omega), hcontent, hcons,
      List.take_append_of_le_length (by omega), ← hencL, List.take_length]
  -- run the resolution
  unfold nextCore
  rw [if_neg (by simp [herr]), if_neg (by omega), if_neg (by omega),
    if_neg (by rw [hbound0]; simp), hscan, resolveAt_emit t c hpre]
  refine ⟨rfl, herr, by simp [shiftBuf_length], by simp; omega, ?_, bs, hinner, ?_⟩
  · intro he
    obtain ⟨hbs, hblt⟩ := heof he
    subst hbs
    exact ⟨by rw [hinner]; rfl, by simp; omega⟩
  · -- remaining buffer content followed by the rest of the stream
    dsimp only
    rw [shiftBuf_take t.buf (lenUtf8 c) (t.bsz - lenUtf8 c) hlen (by omega)]
    rw [← List.drop_take, ← List.drop_append_of_le_length (by omega)]
    rw [hcontent, hcons, ← hencL, List.drop_left]

/-- One full iterator step under the round-trip invariant: the next scalar
of the stream is emitted. -/
lemma rt_next_emit (s : CharBuffer) (c : Char) (cs : List Char)
    (h : RTinv s (utf8EncodeList (c :: cs))) :
    (CharBuffer.next s).1 = NextRes.char c ∧
    RTinv (CharBuffer.next s).2 (utf8EncodeList cs) := by
  have hfill := fill_pure s _ h
  obtain ⟨herr, hlen, hbsz, heof, bs, hinner, hcontent⟩ := h
  unfold CharBuffer.next
  rw [if_neg (by simp [herr]), if_neg ?hne]
  case hne =>
    rintro ⟨he, hb0⟩
    obtain ⟨hi0, _⟩ := heof he
    rw [hinner] at hi0
    have hbs := List.map_eq_nil_iff.mp hi0
    subst hbs
    rw [hb0, utf8EncodeList_cons] at hcontent
    simp only [List.take_zero, List.nil_append] at hcontent
    have h1 := lenUtf8_bounds c
    have h2 := utf8Encode_length c
    have h3 : utf8Encode c = [] := by
      cases hcc : utf8Encode c with
      | nil => rfl
      | cons x xs =>
        rw [hcc] at hcontent
        exact absurd hcontent (by simp)
    rw [h3] at h2
    simp at h2
    omega
  exact nextCore_emit _ c cs hfill

/-- One full iterator step on an exhausted stream: the decoder reports
completion and stays in a completed state. -/
lemma rt_next_done (s : CharBuffer) (h : RTinv s []) :
    (CharBuffer.next s).1 = NextRes.done ∧ RTinv (CharBuffer.next s).2 [] := by
  obtain ⟨herr, hlen, hbsz, heof, bs, hinner, hcontent⟩ := h
  obtain ⟨htk, hbs⟩ := List.append_eq_nil.mp hcontent
  have hb0 : s.bsz = 0 := by
    have h5 := congrArg List.length htk
    rw [List.length_take, hlen] at h5
    simp at h5
    omega
  subst hbs
  have hinner0 : s.inner = [] := by rw [hinner]; rfl
  unfold CharBuffer.next
  rw [if_neg (by simp [herr])]
  by_cases he : s.eof = true
  · rw [if_pos ⟨he, hb0⟩]
    exact ⟨rfl, herr, hlen, hbsz, heof, [], hinner, hcontent⟩
  · rw [if_neg (by rintro ⟨hc, _⟩; exact he hc)]
    have heq : fill s = { s with eof := true } := by
      rw [fill, if_pos ⟨by simpa using he, by omega⟩,
        show 4 - s.bsz = (4 - s.bsz - 1) + 1 from by omega]
      simp [fillGo, hinner0]
    have hcore : nextCore { s with eof := true } = (NextRes.done, { s with eof := true }) := by
      simp [nextCore, herr, hb0]
    rw [heq, hcore]
    exact ⟨rfl, herr, hlen, hbsz, fun _ => ⟨hinner0, by show s.bsz < 4; omega⟩, [],
      hinner, hcontent⟩

/-- Running the offset-tracking decoder under the invariant produces exactly
the remaining scalars at cumulative offsets, then the end signal. -/
lemma rt_ci_run : ∀ (cs : List Char) (s : CharIndicesBuffer),
    RTinv s.buf (utf8EncodeList cs) →
    (ciRunN (cs.length + 1) s).1 = expectedOuts cs s.off ++ [CIRes.done] := by
  intro cs
  induction cs with
  | nil =>
    intro s h
    obtain ⟨hr, _⟩ := rt_next_done s.buf h
    rcases hcb : CharBuffer.next s.buf with ⟨r, b⟩
    rw [hcb] at hr
    simp only at hr
    subst hr
    have hci : CharIndicesBuffer.next s = (CIRes.done, { s with buf := b }) := by
      simp [CharIndicesBuffer.next, hcb]
    simp [ciRunN, hci, expectedOuts]
  | cons c cs ih =>
    intro s h
    obtain ⟨hr, hinv⟩ := rt_next_emit s.buf c cs h
    rcases hcb : CharBuffer.next s.buf with ⟨r, b⟩
    rw [hcb] at hr hinv
    simp only at hr hinv
    subst hr
    have hci : CharIndicesBuffer.next s =
        (CIRes.char s.off c, ⟨b, s.off + lenUtf8 c⟩) := by
      simp [CharIndicesBuffer.next, hcb]
    have hrec := ih ⟨b, s.off + lenUtf8 c⟩ hinv
    have hstep : ∀ (n : Nat) (u : CharIndicesBuffer),
        (ciRunN (n + 1) u).1 =
          (CharIndicesBuffer.next u).1 :: (ciRunN n (CharIndicesBuffer.next u).2).1 := by
      intro n u
      simp [ciRunN]
    rw [show (c :: cs).length + 1 = (cs.length + 1) + 1 from by simp]
    rw [hstep (cs.length + 1) s, hci]
    simp only
    rw [hrec]
    simp [expectedOuts]

/-! ### Absence of panics -/

lemma resolveAt_no_panic (t : CharBuffer) (i : Nat)
    (h1 : 1 ≤ i) (h2 : i ≤ t.buf.length)
    (hnb : ∀ j, 1 ≤ j → j < i → is_utf8_char_boundary (t.buf.getD j 0) = false) :
    (resolveAt t i).1 ≠ NextRes.panic := by
  unfold resolveAt
  split
  · rename_i hvld
    have hlen : (t.buf.take i).length = i := by
      simp [List.length_take]
      omega
    have hne : t.buf.take i ≠ [] := by
      intro hc
      rw [hc] at hlen
      simp at hlen
      omega
    have hnb2 : ∀ j, 1 ≤ j → j < (t.buf.take i).length →
        is_utf8_char_boundary ((t.buf.take i).getD j 0) = false := by
      intro j hj1 hj2
      rw [hlen] at hj2
      rw [show (t.buf.take i).getD j 0 = t.buf.getD j 0 from by
        simp [List.getD, List.getElem?_take, hj2]]
      exact hnb j hj1 hj2
    obtain ⟨c, hdec, hlen2⟩ := valid_nonboundary_single _ hne hvld hnb2
    rw [hlen] at hlen2
    simp [hdec, hlen2]
  · simp

lemma nextCore_no_panic (t : CharBuffer) (hb : t.bsz ≤ 4) (hlen : t.buf.length = 4)
    (hz : t.err = false → t.bsz = 0 → t.eof = true) :
    (nextCore t).1 ≠ NextRes.panic := by
  unfold nextCore
  split
  · simp
  · rename_i herr
    split
    · rename_i h45
      exact absurd h45 (by omega)
    · split
      · rename_i h45 h0
        rw [hz (by simpa using herr) h0]
        simp
      · split
        · simp
        · apply resolveAt_no_panic
          · exact Nat.le_trans (by omega) (scanGo_ge (t.bsz - 1) 1 t.buf)
          · have := scanGo_le (t.bsz - 1) 1 t.buf
            rw [hlen]
            omega
          · intro j hj1 hj2
            exact scanGo_not_boundary (t.bsz - 1) 1 j t.buf hj1 hj2

/-- On any state with a well-formed buffer (`length = 4`, `bsz ≤ 4`), the
iterator step never hits a runtime assertion. -/
lemma next_no_panic (s : CharBuffer) (hlen : s.buf.length = 4) (hb : s.bsz ≤ 4) :
    (CharBuffer.next s).1 ≠ NextRes.panic := by
  unfold CharBuffer.next
  split
  · simp
  · split
    · simp
    · rename_i herr hnd
      apply nextCore_no_panic
      · exact fill_bsz_le s hb
      · rw [fill_buf_len]
        exact hlen
      · intro hferr hfz
        by_cases hg : s.eof = false ∧ s.bsz < 4
        · rw [fill, if_pos hg] at hferr hfz ⊢
          have h4 : 4 - s.bsz = (4 - s.bsz - 1) + 1 := by omega
          rw [h4] at hferr hfz ⊢
          apply fillGo_eof_of_stuck _ _ hferr
          omega
        · rw [fill, if_neg hg] at hferr hfz ⊢
          cases he : s.eof
          · exact absurd ⟨he, by omega⟩ hg
          · rfl

lemma cbIter_bsz_le (n : Nat) (s : CharBuffer) (h : s.bsz ≤ 4) : (cbIter n s).bsz ≤ 4 := by
  induction n generalizing s with
  | zero => exact h
  | succ n ih => exact ih _ (next_bsz_le s h)

lemma cbIter_buf_len (n : Nat) (s : CharBuffer) (h : s.buf.length = 4) :
    (cbIter n s).buf.length = 4 := by
  induction n generalizing s with
  | zero => exact h
  | succ n ih => exact ih _ (next_buf_len s h)

/-! ### Resumability -/

lemma ciRunN_add : ∀ (k m : Nat) (s : CharIndicesBuffer),
    ciRunN (k + m) s =
      ((ciRunN k s).1 ++ (ciRunN m (ciRunN k s).2).1, (ciRunN m (ciRunN k s).2).2) := by
  intro k
  induction k with
  | zero => intro m s; simp [ciRunN]
  | succ k ih =>
    intro m s
    rw [show k + 1 + m = (k + m) + 1 from by omega]
    simp only [ciRunN]
    rw [ih m (CharIndicesBuffer.next s).2]
    simp

lemma resumeFrom_eq (s : CharIndicesBuffer) (h : s.buf.bsz ≤ 4) :
    resumeFrom s =
      some ⟨⟨s.buf.inner, s.buf.buf, s.buf.bsz, false, false⟩, s.off⟩ := by
  unfold resumeFrom CharIndicesBuffer.into_reader_state
  by_cases he : s.buf.err = true <;>
    simp [he, stateOf, CharIndicesBuffer.from_reader_state, CharBuffer.from_reader_state, h]

lemma nextCore_fail_of_resolutionFails (t : CharBuffer) (herr : t.err = false)
    (hb1 : 1 ≤ t.bsz) (hb4 : t.bsz ≤ 4) (hrf : resolutionFails t.buf t.bsz) :
    nextCore t = (NextRes.fail, { t with err := true }) := by
  unfold nextCore
  rw [if_neg (by simp [herr]), if_neg (by omega), if_neg (by omega)]
  rcases hrf with hb | hv
  · rw [if_pos hb]
  · by_cases hb : is_utf8_char_boundary (t.buf.getD 0 0) = false
    · rw [if_pos hb]
    · rw [if_neg hb]
      unfold resolveAt
      rw [if_neg (by simp [hv])]

/-- Clearing the end-of-input flag on a drained-source state is invisible to
the iterator: the first fill rediscovers end of input. -/
lemma cb_next_eof_clear (buf : List Nat) (bsz : Nat) (hb : bsz < 4) :
    CharBuffer.next ⟨[], buf, bsz, false, false⟩ =
      CharBuffer.next ⟨[], buf, bsz, true, false⟩ := by
  have hLfill : fill ⟨[], buf, bsz, false, false⟩ = ⟨[], buf, bsz, true, false⟩ := by
    rw [fill, if_pos ⟨rfl, hb⟩, show 4 - bsz = (4 - bsz - 1) + 1 from by omega]
    simp [fillGo]
  have hL : CharBuffer.next ⟨[], buf, bsz, false, false⟩ =
      nextCore ⟨[], buf, bsz, true, false⟩ := by
    unfold CharBuffer.next
    rw [if_neg (by simp), if_neg (by simp), hLfill]
  have hR : CharBuffer.next ⟨[], buf, bsz, true, false⟩ =
      nextCore ⟨[], buf, bsz, true, false⟩ := by
    by_cases hz : bsz = 0
    · subst hz
      simp [CharBuffer.next, nextCore]
    · unfold CharBuffer.next
      rw [if_neg (by simp), if_neg (by simp [hz]),
        show fill ⟨[], buf, bsz, true, false⟩ = ⟨[], buf, bsz, true, false⟩ from by
          rw [fill, if_neg (by simp)]]
  rw [hL, hR]

/-- The reachable-state invariant is preserved by the iterator step. -/
lemma pureInv_next (s : CharBuffer) (h : PureInv s) : PureInv (CharBuffer.next s).2 := by
  obtain ⟨hlen, hbsz, ⟨bs, hinner⟩, heof, herrinv⟩ := h
  by_cases herr : s.err = true
  · rw [cb_next_of_err s herr]
    exact ⟨hlen, hbsz, ⟨bs, hinner⟩, heof, herrinv⟩
  · have herr2 : s.err = false := by simpa using herr
    by_cases hd : s.eof = true ∧ s.bsz = 0
    · unfold CharBuffer.next
      rw [if_neg (by simp [herr2]), if_pos hd]
      exact ⟨hlen, hbsz, ⟨bs, hinner⟩, heof, herrinv⟩
    · unfold CharBuffer.next
      rw [if_neg (by simp [herr2]), if_neg hd]
      have hrt : RTinv s (s.buf.take s.bsz ++ bs) := ⟨herr2, hlen, hbsz, heof, bs, hinner, rfl⟩
      obtain ⟨te, tlen, tbsz, bs2, tinner, tcontent, teof⟩ := fill_pure s _ hrt
      have hLlen : (s.buf.take s.bsz ++ bs).length = s.bsz + bs.length := by
        simp [List.length_take]
        omega
      have htlen2 : (List.take (fill s).bsz (fill s).buf).length = (fill s).bsz := by
        simp [List.length_take]
        omega
      have hstake : (List.take s.bsz s.buf).length = s.bsz := by
        simp [List.length_take]
        omega
      have hfour : (fill s).bsz = 4 ∨ (fill s).inner = [] := by
        rcases Nat.lt_or_ge (fill s).bsz 4 with hlt | hge
        · right
          have hc := congrArg List.length tcontent
          simp only [List.length_append, htlen2] at hc
          have hb20 : bs2 = [] := by
            have : bs2.length = 0 := by omega
            exact List.length_eq_zero.mp this
          rw [tinner, hb20]
          rfl
        · left
          omega
      -- the state after fill, as produced by every branch below
      generalize hT : fill s = t at te tlen tbsz bs2 tinner tcontent teof htlen2 hfour
      have tpure : ∃ bs3, t.inner = byteEvents bs3 := ⟨bs2, tinner⟩
      have teof2 : t.eof = true → t.inner = [] ∧ t.bsz < 4 := by
        intro he
        obtain ⟨hb2, hlt⟩ := teof he
        subst hb2
        exact ⟨by rw [tinner]; rfl, hlt⟩
      unfold nextCore
      rw [if_neg (by simp [te]), if_neg (by omega)]
      by_cases hz : t.bsz = 0
      · rw [if_pos hz]
        split
        · exact ⟨tlen, by show t.bsz ≤ 4; omega, tpure, teof2, by simp [te]⟩
        · exact ⟨tlen, by show t.bsz ≤ 4; omega, tpure, teof2, by simp [te]⟩
      · rw [if_neg hz]
        by_cases hbd : is_utf8_char_boundary (t.buf.getD 0 0) = false
        · rw [if_pos hbd]
          refine ⟨tlen, by show t.bsz ≤ 4; omega, tpure, teof2,
            fun _ => ⟨by show 1 ≤ t.bsz; omega, hfour, Or.inl hbd⟩⟩
        · rw [if_neg hbd]
          unfold resolveAt
          by_cases hv : validUtf8 (t.buf.take (scanGo t.buf (t.bsz - 1) 1)) = true
          · rw [if_pos hv]
            have hi1 : 1 ≤ scanGo t.buf (t.bsz - 1) 1 :=
              Nat.le_trans (by omega) (scanGo_ge (t.bsz - 1) 1 t.buf)
            have hi4 : scanGo t.buf (t.bsz - 1) 1 ≤ t.bsz := by
              have := scanGo_le (t.bsz - 1) 1 t.buf
              omega
            have hprelen : (t.buf.take (scanGo t.buf (t.bsz - 1) 1)).length =
                scanGo t.buf (t.bsz - 1) 1 := by
              simp [List.length_take]
              omega
            obtain ⟨c, hdec, hlen2⟩ := valid_nonboundary_single _
              (by
                intro hc
                rw [hc] at hprelen
                simp at hprelen
                omega)
              hv
              (by
                intro j hj1 hj2
                rw [hprelen] at hj2
                rw [getD_take _ _ _ (by omega)]
                exact scanGo_not_boundary (t.bsz - 1) 1 j t.buf hj1 hj2)
            simp only [hdec]
            rw [if_pos (by rw [hlen2, hprelen])]
            refine ⟨by simp [shiftBuf_length], by simp; omega, ⟨bs2, by simpa using tinner⟩,
              ?_, by simp [te]⟩
            intro he
            obtain ⟨hb2, _⟩ := teof2 (by simpa using he)
            exact ⟨by simpa using hb2, by simp; omega⟩
          · rw [if_neg hv]
            refine ⟨tlen, by show t.bsz ≤ 4; omega, tpure, teof2,
              fun _ => ⟨by show 1 ≤ t.bsz; omega, hfour, Or.inr (by simpa using hv)⟩⟩

lemma pureInv_from_reader (bs : List Nat) :
    PureInv (CharBuffer.from_reader (byteEvents bs)) := by
  refine ⟨rfl, by simp [CharBuffer.from_reader], ⟨bs, rfl⟩, ?_, ?_⟩
  · intro hc
    simp [CharBuffer.from_reader] at hc
  · intro hc
    simp [CharBuffer.from_reader] at hc

lemma ci_next_buf (s : CharIndicesBuffer) :
    (CharIndicesBuffer.next s).2.buf = (CharBuffer.next s.buf).2 := by
  unfold CharIndicesBuffer.next
  rcases h : CharBuffer.next s.buf with ⟨r, b⟩
  cases r <;> simp

lemma pureInv_run (k : Nat) : ∀ s : CharIndicesBuffer, PureInv s.buf →
    PureInv (ciRunN k s).2.buf := by
  induction k with
  | zero => intro s h; exact h
  | succ k ih =>
    intro s h
    simp only [ciRunN]
    apply ih
    rw [ci_next_buf]
    exact pureInv_next _ h

/-- Rebuilding a decoder from its extracted state (which clears the
end-of-input and failed flags) does not change the sequence of yielded
items: a cleared end-of-input flag is rediscovered by the next fill, and a
cleared failed flag leads the decoder to re-fail on the retained offending
buffer without yielding anything new. -/
lemma resume_run : ∀ (s : CharIndicesBuffer), PureInv s.buf → ∀ (r : CharIndicesBuffer),
    resumeFrom s = some r → ∀ (m : Nat), (ciRunN m r).1 = (ciRunN m s).1 := by
  rintro ⟨⟨inner, buf, bsz, eof, err⟩, off⟩ ⟨hlen, hbsz, ⟨bs, hinner⟩, heof, herrinv⟩ r hr m
  dsimp only at hlen hbsz hinner heof herrinv
  rw [resumeFrom_eq _ hbsz] at hr
  dsimp only at hr
  injection hr with hr
  subst hr
  cases err with
  | true =>
    obtain ⟨hb1, hfour, hrf⟩ := herrinv rfl
    rw [ciRunN_of_err m ⟨⟨inner, buf, bsz, eof, true⟩, off⟩ rfl]
    have hfill : fill ⟨inner, buf, bsz, false, false⟩ = ⟨inner, buf, bsz, false, false⟩ ∨
        fill ⟨inner, buf, bsz, false, false⟩ = ⟨inner, buf, bsz, true, false⟩ := by
      by_cases hlt : bsz < 4
      · right
        have hie : inner = [] := by
          rcases hfour with h4 | hie
          · omega
          · exact hie
        subst hie
        rw [fill, if_pos ⟨rfl, hlt⟩, show 4 - bsz = (4 - bsz - 1) + 1 from by omega]
        simp [fillGo]
      · left
        rw [fill, if_neg (by rintro ⟨_, hc⟩; exact hlt hc)]
    have hfb : (fill ⟨inner, buf, bsz, false, false⟩).buf = buf ∧
        (fill ⟨inner, buf, bsz, false, false⟩).bsz = bsz ∧
        (fill ⟨inner, buf, bsz, false, false⟩).err = false := by
      rcases hfill with h | h <;> rw [h] <;> exact ⟨rfl, rfl, rfl⟩
    have hnext : CharBuffer.next ⟨inner, buf, bsz, false, false⟩ =
        (NextRes.fail, { fill ⟨inner, buf, bsz, false, false⟩ with err := true }) := by
      unfold CharBuffer.next
      rw [if_neg (by simp), if_neg (by simp)]
      apply nextCore_fail_of_resolutionFails
      · exact hfb.2.2
      · rw [hfb.2.1]; exact hb1
      · rw [hfb.2.1]; exact hbsz
      · rw [hfb.1, hfb.2.1]; exact hrf
    have hci : CharIndicesBuffer.next ⟨⟨inner, buf, bsz, false, false⟩, off⟩ =
        (CIRes.fail off,
          ⟨{ fill ⟨inner, buf, bsz, false, false⟩ with err := true }, off⟩) := by
      simp [CharIndicesBuffer.next, hnext]
    match m with
    | 0 => simp [ciRunN]
    | Nat.succ m' =>
      simp only [ciRunN, hci]
      rw [ciRunN_of_err m' _ rfl]
      simp [List.replicate]
  | false =>
    cases eof with
    | false => rfl
    | true =>
      obtain ⟨hie, hlt⟩ := heof rfl
      subst hie
      have hci : CharIndicesBuffer.next ⟨⟨[], buf, bsz, false, false⟩, off⟩ =
          CharIndicesBuffer.next ⟨⟨[], buf, bsz, true, false⟩, off⟩ := by
        unfold CharIndicesBuffer.next
        rw [cb_next_eof_clear buf bsz hlt]
      match m with
      | 0 => rfl
      | Nat.succ m' =>
        simp only [ciRunN, hci]

/-! ### Claims -/

/-- C1: encoding any finite sequence of Unicode scalar values to UTF-8 and
feeding the bytes through a fresh offset-tracking decoder yields exactly the
original scalars in order, each at the cumulative encoded byte length of its
predecessors, followed by the stream-exhausted signal. -/
theorem claim_C1 (cs : List Char) :
    (ciRunN (cs.length + 1)
        (CharIndicesBuffer.from_reader (byteEvents (utf8EncodeList cs)))).1 =
      expectedOuts cs 0 ++ [CIRes.done] := by
  apply rt_ci_run cs
  refine ⟨rfl, rfl, ?_, ?_, ⟨utf8EncodeList cs, rfl, ?_⟩⟩
  · simp [CharIndicesBuffer.from_reader, CharBuffer.from_reader]
  · intro hc
    cases hc
  · simp [CharIndicesBuffer.from_reader, CharBuffer.from_reader]

/-- C3: for every byte stream and every split point, decoding the whole
stream in one pass yields the same `(offset, scalar)` results as decoding a
prefix of `k` steps, extracting the state with `into_reader_state`,
reconstructing a decoder from that extracted `(offset, pending bytes,
pending length, source)` tuple via `from_reader_state`, and decoding the
remainder. -/
theorem claim_C3 (bs : List Nat) (k n : Nat) (hkn : k ≤ n) (r : CharIndicesBuffer)
    (hr : resumeFrom (ciRunN k (CharIndicesBuffer.from_reader (byteEvents bs))).2 = some r) :
    (ciRunN n (CharIndicesBuffer.from_reader (byteEvents bs))).1 =
      (ciRunN k (CharIndicesBuffer.from_reader (byteEvents bs))).1 ++
        (ciRunN (n - k) r).1 := by
  have hinv : PureInv (ciRunN k (CharIndicesBuffer.from_reader (byteEvents bs))).2.buf :=
    pureInv_run k _ (pureInv_from_reader bs)
  conv_lhs => rw [show n = k + (n - k) from by omega]
  rw [ciRunN_add]
  dsimp only
  congr 1
  exact (resume_run _ hinv r hr (n - k)).symm

theorem claim_C3_witness :
    (ciRunN 3 (CharIndicesBuffer.from_reader (byteEvents [0x41, 0xC2, 0xA9]))).1 =
      (ciRunN 1 (CharIndicesBuffer.from_reader (byteEvents [0x41, 0xC2, 0xA9]))).1 ++
        (ciRunN 2 ⟨⟨[], [0xC2, 0xA9, 0, 0], 2, false, false⟩, 1⟩).1 :=
  claim_C3 [0x41, 0xC2, 0xA9] 1 3 (by decide)
    ⟨⟨[], [0xC2, 0xA9, 0, 0], 2, false, false⟩, 1⟩ (by decide)

/-- C4: for every byte value 0–255, `is_utf8_char_boundary b` is true iff
`b < 0x80` or `b ≥ 0xC0`; equivalently, iff `b` as a signed 8-bit integer is
at least `-64`. -/
theorem claim_C4 : ∀ b, b < 256 →
    ((is_utf8_char_boundary b = true ↔ (b < 0x80 ∨ 0xC0 ≤ b)) ∧
     (is_utf8_char_boundary b = true ↔ -64 ≤ toI8 b)) := by decide

theorem claim_C4_witness :
    (65 < 256) ∧
    ((is_utf8_char_boundary 65 = true ↔ (65 < 0x80 ∨ 0xC0 ≤ 65)) ∧
     (is_utf8_char_boundary 65 = true ↔ -64 ≤ toI8 65)) :=
  ⟨by decide, claim_C4 65 (by decide)⟩

/-- C6: feeding the byte stream `[0x41, 0xC2]` to a fresh offset-tracking
decoder yields `Ok((0, 'A'))` and then `Err(1)`. -/
theorem claim_C6 :
    (ciRunN 2 (CharIndicesBuffer.from_reader (byteEvents [0x41, 0xC2]))).1 =
      [CIRes.char 0 'A', CIRes.fail 1] := by decide

/-- C2: once the failed flag is set, every subsequent `next` returns the
failure signal with the state (in particular the byte source) unchanged, and
`into_reader_state` returns the `Err`-tagged state; the decoder never again
returns a scalar or the stream-exhausted signal. -/
theorem claim_C2 (s : CharIndicesBuffer) (h : s.buf.err = true) (n : Nat) :
    ciRunN n s = (List.replicate n (CIRes.fail s.off), s) ∧
    s.into_reader_state = Except.error (s.off, s.buf.buf, s.buf.bsz, s.buf.inner) := by
  refine ⟨ciRunN_of_err n s h, ?_⟩
  simp [CharIndicesBuffer.into_reader_state, h]

theorem claim_C2_witness :
    ciRunN 2 ⟨⟨[ReadEv.rcount 1 65], [0, 0, 0, 0], 0, false, true⟩, 7⟩ =
      (List.replicate 2 (CIRes.fail 7), ⟨⟨[ReadEv.rcount 1 65], [0, 0, 0, 0], 0, false, true⟩, 7⟩) ∧
    CharIndicesBuffer.into_reader_state ⟨⟨[ReadEv.rcount 1 65], [0, 0, 0, 0], 0, false, true⟩, 7⟩ =
      Except.error (7, [0, 0, 0, 0], 0, [ReadEv.rcount 1 65]) :=
  claim_C2 ⟨⟨[ReadEv.rcount 1 65], [0, 0, 0, 0], 0, false, true⟩, 7⟩ rfl 2

/-- C7: a read that claims to deliver more than one byte for a single-byte
request makes the decoder set its failed flag and return the failure signal
from that call, and it stays failed on every subsequent call. -/
theorem claim_C7 (s : CharIndicesBuffer) (k b : Nat) (rest : Reader)
    (he : s.buf.err = false) (hf : s.buf.eof = false) (hb : s.buf.bsz < 4)
    (hi : s.buf.inner = ReadEv.rcount (k + 2) b :: rest) (n : Nat) :
    (CharIndicesBuffer.next s).1 = CIRes.fail s.off ∧
    (CharIndicesBuffer.next s).2.buf.err = true ∧
    (ciRunN n (CharIndicesBuffer.next s).2).1 = List.replicate n (CIRes.fail s.off) := by
  have h4 : 4 - s.buf.bsz = (3 - s.buf.bsz) + 1 := by omega
  have hnext : CharBuffer.next s.buf = (NextRes.fail, { s.buf with inner := rest, err := true }) := by
    simp only [CharBuffer.next, he, hf, hb, fill, h4, fillGo, hi, nextCore]
    simp
  have hcin : CharIndicesBuffer.next s =
      (CIRes.fail s.off, { s with buf := { s.buf with inner := rest, err := true } }) := by
    simp [CharIndicesBuffer.next, hnext]
  rw [hcin]
  refine ⟨rfl, rfl, ?_⟩
  rw [ciRunN_of_err n _ rfl]

theorem claim_C7_witness :
    (CharIndicesBuffer.next (CharIndicesBuffer.from_reader [ReadEv.rcount 2 0])).1 =
      CIRes.fail 0 ∧
    (CharIndicesBuffer.next (CharIndicesBuffer.from_reader [ReadEv.rcount 2 0])).2.buf.err = true ∧
    (ciRunN 2 (CharIndicesBuffer.next (CharIndicesBuffer.from_reader [ReadEv.rcount 2 0])).2).1 =
      List.replicate 2 (CIRes.fail 0) :=
  claim_C7 (CharIndicesBuffer.from_reader [ReadEv.rcount 2 0]) 0 0 [] rfl rfl
    (by decide) rfl 2

/-- C8: a `next` call that emits a scalar `c` reports the current offset and
advances it by exactly `lenUtf8 c` (a value between 1 and 4); any other
outcome leaves the offset unchanged; hence the offset never decreases. -/
theorem claim_C8 (s : CharIndicesBuffer) :
    (∀ o c, (CharIndicesBuffer.next s).1 = CIRes.char o c →
      o = s.off ∧ (CharIndicesBuffer.next s).2.off = s.off + lenUtf8 c ∧
      1 ≤ lenUtf8 c ∧ lenUtf8 c ≤ 4) ∧
    ((∀ o c, (CharIndicesBuffer.next s).1 ≠ CIRes.char o c) →
      (CharIndicesBuffer.next s).2.off = s.off) ∧
    s.off ≤ (CharIndicesBuffer.next s).2.off := by
  unfold CharIndicesBuffer.next
  rcases hn : CharBuffer.next s.buf with ⟨r, b⟩
  cases r with
  | done => simp
  | fail => simp
  | panic => simp
  | char c =>
    refine ⟨?_, ?_, ?_⟩
    · intro o c' h
      simp at h
      obtain ⟨ho, hc⟩ := h
      subst ho hc
      exact ⟨rfl, rfl, lenUtf8_bounds c⟩
    · intro h
      exact absurd rfl (h s.off c)
    · simp

theorem claim_C8_witness :
    0 = 0 ∧ (CharIndicesBuffer.next (CharIndicesBuffer.from_reader (byteEvents [65]))).2.off =
        0 + lenUtf8 'A' ∧ 1 ≤ lenUtf8 'A' ∧ lenUtf8 'A' ≤ 4 :=
  (claim_C8 (CharIndicesBuffer.from_reader (byteEvents [65]))).1 0 'A' (by decide)

/-- C5: the pending length `bsz` stays between 0 and 4 at every step, the
fill loop never grows the 4-byte buffer, and construction from saved state
only accepts a pending length of at most 4. -/
theorem claim_C5 :
    (∀ s n, s.bsz ≤ 4 → (cbIter n s).bsz ≤ 4) ∧
    (∀ s n, s.buf.length = 4 → (cbIter n s).buf.length = 4) ∧
    (∀ buf blen inner t, CharBuffer.from_reader_state buf blen inner = some t → t.bsz ≤ 4) ∧
    (∀ buf blen inner, 4 < blen → CharBuffer.from_reader_state buf blen inner = none) ∧
    (∀ inner, (CharBuffer.from_reader inner).bsz = 0) := by
  refine ⟨?_, ?_, ?_, ?_, fun _ => rfl⟩
  · intro s n
    induction n generalizing s with
    | zero => intro h; exact h
    | succ n ih => intro h; exact ih _ (next_bsz_le s h)
  · intro s n
    induction n generalizing s with
    | zero => intro h; exact h
    | succ n ih => intro h; exact ih _ (next_buf_len s h)
  · intro buf blen inner t h
    unfold CharBuffer.from_reader_state at h
    split at h
    · cases h; simpa using by assumption
    · cases h
  · intro buf blen inner h
    unfold CharBuffer.from_reader_state
    split
    · omega
    · rfl

theorem claim_C5_witness :
    (cbIter 3 (CharBuffer.from_reader (byteEvents [0x41, 0xC2, 0x80, 0x31, 0x32]))).bsz ≤ 4 :=
  claim_C5.1 (CharBuffer.from_reader (byteEvents [0x41, 0xC2, 0x80, 0x31, 0x32])) 3 (by decide)

/-- C10: both `from_reader_state` constructors clear the end-of-input and
failed flags regardless of the supplied tuple; consequently a decoder rebuilt
from the state extracted out of a failed decoder can emit scalars again
(shown on a source whose first read fails and whose second read delivers
`0x41`). -/
theorem claim_C10 :
    (∀ buf blen inner t, CharBuffer.from_reader_state buf blen inner = some t →
      t.eof = false ∧ t.err = false) ∧
    (∀ off buf blen inner t, CharIndicesBuffer.from_reader_state off buf blen inner = some t →
      t.buf.eof = false ∧ t.buf.err = false) ∧
    ((ciRunN 1 (CharIndicesBuffer.from_reader [ReadEv.rerr, ReadEv.rcount 1 0x41])).2.buf.err
        = true ∧
     ((fun st => CharIndicesBuffer.from_reader_state st.1 st.2.1 st.2.2.1 st.2.2.2)
        (stateOf (ciRunN 1 (CharIndicesBuffer.from_reader
          [ReadEv.rerr, ReadEv.rcount 1 0x41])).2.into_reader_state)).map
        (fun r => (CharIndicesBuffer.next r).1) = some (CIRes.char 0 'A')) := by
  refine ⟨?_, ?_, by decide, by decide⟩
  · intro buf blen inner t h
    unfold CharBuffer.from_reader_state at h
    split at h
    · cases h; exact ⟨rfl, rfl⟩
    · cases h
  · intro off buf blen inner t h
    unfold CharIndicesBuffer.from_reader_state at h
    unfold CharBuffer.from_reader_state at h
    split at h
    · cases h; exact ⟨rfl, rfl⟩
    · cases h

/-- C9: whenever interpretation of the first `i` pending bytes succeeds, the
decoded scalar's encoded length equals `i`, so no runtime assertion of
`CharBuffer::next` (in particular `assert_eq!(c.len_utf8(), i)`) ever fires:
neither on any state with a well-formed 4-byte buffer, nor on any state
reachable from a freshly constructed decoder over any source. -/
theorem claim_C9 :
    (∀ s : CharBuffer, s.buf.length = 4 → s.bsz ≤ 4 →
      (CharBuffer.next s).1 ≠ NextRes.panic) ∧
    (∀ (inner : Reader) (n : Nat),
      (CharBuffer.next (cbIter n (CharBuffer.from_reader inner))).1 ≠ NextRes.panic) := by
  refine ⟨next_no_panic, fun inner n => ?_⟩
  exact next_no_panic _ (cbIter_buf_len n _ rfl)
    (cbIter_bsz_le n (CharBuffer.from_reader inner) (by simp [CharBuffer.from_reader]))

theorem claim_C9_witness :
    (CharBuffer.next (CharBuffer.from_reader (byteEvents [0xE2, 0x82, 0xAC]))).1 ≠
      NextRes.panic :=
  claim_C9.1 (CharBuffer.from_reader (byteEvents [0xE2, 0x82, 0xAC])) rfl (by decide)

theorem claim_C10_witness :
    (CharBuffer.from_reader [] ).eof = false ∧ (CharBuffer.from_reader []).err = false :=
  claim_C10.1 [0, 0, 0, 0] 0 [] (CharBuffer.from_reader []) rfl

end Utf8Stream
